import Mathlib

/-!
Verification development for the `searchgrid` library (`searchgrid.py`).

The embedding models:
* Python dicts as insertion-ordered association lists (`List (String × _)`),
  with `setKey` implementing in-place update-or-append exactly as a CPython
  dict assignment behaves, and `dictUpdate` implementing `d1.copy(); d1.update(d2)`;
* estimators as the nested inductive `Val`: a value is either a plain value or
  a node carrying its `get_params()` list and its optional `_param_grid`
  attribute (a mapping or a list of mappings);
* `_update_grid`, `_build_param_grid` (general recursion rendered with an
  explicit fuel parameter; `none` at the outer `Option` layer means the fuel
  ran out, which never happens for fuel larger than the tree depth),
  `build_param_grid`, `set_grid`, `_check_estimator`, `_name_steps` and
  `_name_of_estimator`.
-/

namespace Searchgrid

/-- A Python value in a parameter tree: a plain (non-estimator) value, or an
estimator node `vnode params attr` where `params` is the ordered
`get_params()` mapping and `attr` is the optional `_param_grid` attribute,
which holds either a single mapping (`Sum.inl`) or a list of mappings
(`Sum.inr`). -/
inductive Val : Type where
  | plain : Nat → Val
  | vnode : List (String × Val) →
      Option ((List (String × List Val)) ⊕ (List (List (String × List Val)))) → Val

/-- A Conjunction: one mapping from parameter name to candidate list. -/
abbrev Conj : Type := List (String × List Val)

/-- The `_param_grid` attribute: absent, a mapping, or a list of mappings. -/
abbrev Attr : Type := Option (Conj ⊕ List Conj)

/-- First-occurrence lookup in an association list (Python `d[k]`/`d.get(k)`
for dicts, whose keys are unique). -/
def lookupV {α : Type} (k : String) : List (String × α) → Option α
  | [] => none
  | (k', v) :: rest => if k' = k then some v else lookupV k rest

/-- Python `k in d` for a dict rendered as an association list. -/
def keyMem {α : Type} (k : String) : List (String × α) → Bool
  | [] => false
  | (k', _) :: rest => if k' = k then true else keyMem k rest

/-- Python dict assignment `d[k] = v`: replace the value at the first
occurrence of `k`, keeping its position, or append `(k, v)` at the end. -/
def setKey {α : Type} : List (String × α) → String → α → List (String × α)
  | [], k, v => [(k, v)]
  | (k', v') :: rest, k, v =>
      if k' = k then (k', v) :: rest else (k', v') :: setKey rest k v

/-- Python `out_d = d1.copy(); out_d.update(d2)`. -/
def dictUpdate {α : Type} (d1 d2 : List (String × α)) : List (String × α) :=
  d2.foldl (fun d kv => setKey d kv.1 kv.2) d1

/-- The key-prefixing applied by `_update_grid` to one Conjunction of `src`:
`{prefix + k: v for k, v in d.items()}`, guarded by Python truthiness of the
prefix (`None` and the empty string leave the dict unchanged). -/
def prefConj (pre : Option String) (d : Conj) : Conj :=
  match pre with
  | none => d
  | some p => if p = "" then d else d.map (fun kv => (p ++ kv.1, kv.2))

/-- The prefixing statement of `_update_grid`:
`if prefix: src = [{prefix + k: v for k, v in d.items()} for d in src]`. -/
def prefixSrc (pre : Option String) (s : List Conj) : List Conj :=
  match pre with
  | none => s
  | some p =>
      if p = "" then s
      else s.map (fun (d : Conj) => d.map (fun kv => (p ++ kv.1, kv.2)))

/-- Model of `_update_grid(dest, src, prefix)`. -/
def update_grid (dest : List Conj) (src : Option (List Conj)) (pre : Option String) :
    List Conj :=
  match src with
  | none => dest
  | some s =>
      dest.flatMap (fun d1 => (prefixSrc pre s).map (fun d2 => dictUpdate d1 d2))

/-- Helper for the substring test `'__' in param_name`. -/
def hasDunderAux : List Char → Bool
  | [] => false
  | c :: rest => (List.isPrefixOf ['_', '_'] (c :: rest)) || hasDunderAux rest

/-- Python `'__' in param_name`. -/
def hasDunder (p : String) : Bool :=
  hasDunderAux p.data

/-- Normalisation done at the top of `_build_param_grid`:
`grid = getattr(estimator, '_param_grid', {})`, then a bare mapping is
wrapped into a one-element list. -/
def normAttr : Attr → List Conj
  | none => [[]]
  | some (Sum.inl m) => [m]
  | some (Sum.inr l) => l

/-- The type of the recursive call `_build_param_grid` threaded through the
loop bodies (outer `Option` is fuel exhaustion, inner `Option` is the
function's own `None` result). -/
abbrev BuildFn : Type :=
  List (String × Val) → Attr → Option (Option (List Conj))

/-- One parameter's step of Pass 1 of `_build_param_grid`: given the child's
built grid `vg` for top-level parameter `p`, each Conjunction that already
declares candidates for `p` is kept untouched, every other one is merged with
`vg` under prefix `p ++ "__"`. -/
def pass1Param (vg : Option (List Conj)) (p : String) (grid : List Conj) : List Conj :=
  grid.flatMap (fun sub =>
    if keyMem p sub then [sub] else update_grid [sub] vg (some (p ++ "__")))

/-- Pass 1 of `_build_param_grid`: fold over `estimator.get_params().items()`,
applying `pass1Param` for every top-level (`'__'`-free) parameter whose value
is an estimator. -/
def pass1Loop (build : BuildFn) : List (String × Val) → List Conj → Option (List Conj)
  | [], grid => some grid
  | (p, v) :: rest, grid =>
    match v with
    | Val.vnode ps a2 =>
      if hasDunder p then pass1Loop build rest grid
      else do
        let vg ← build ps a2
        pass1Loop build rest (pass1Param vg p grid)
    | Val.plain _ => pass1Loop build rest grid

/-- The inner loop of Pass 2 over one parameter's candidate `values`:
returns `(to_update, no_sub_grid)`. A candidate that is an estimator with a
non-`None` built grid contributes `update_grid([{p: [v]}], sub_grid, p + "__")`
to `to_update`; every other candidate is appended to `no_sub_grid`. -/
def splitCands (build : BuildFn) (p : String) : List Val → Option (List Conj × List Val)
  | [] => some ([], [])
  | v :: rest => do
    let contrib ← match v with
      | Val.vnode ps a2 => do
        let sg ← build ps a2
        match sg with
        | some sub =>
            some (update_grid [[(p, [Val.vnode ps a2])]] (some sub) (some (p ++ "__")),
              ([] : List Val))
        | none => some (([] : List Conj), [Val.vnode ps a2])
      | Val.plain n => some (([] : List Conj), [Val.plain n])
    let restr ← splitCands build p rest
    some (contrib.1 ++ restr.1, contrib.2 ++ restr.2)

/-- Pass 2 of `_build_param_grid` for one Conjunction `out_d`: iterate over its
items, cross-multiplying `part` with the partial Conjunctions produced for each
parameter (the non-empty `no_sub_grid` list is appended as the single fallback
entry `{p: no_sub_grid}`). -/
def pass2Conj (build : BuildFn) : List (String × List Val) → List Conj → Option (List Conj)
  | [], part => some part
  | (p, values) :: items, part => do
    let tu ← splitCands build p values
    let to_update := if tu.2.isEmpty then tu.1 else tu.1 ++ [[(p, tu.2)]]
    pass2Conj build items (update_grid part (some to_update) none)

/-- Pass 2 of `_build_param_grid`: process every Conjunction of the grid and
concatenate the results. -/
def pass2Loop (build : BuildFn) : List Conj → Option (List Conj)
  | [] => some []
  | c :: rest => do
    let part ← pass2Conj build c [c]
    let restOut ← pass2Loop build rest
    some (part ++ restOut)

/-- The final check of `_build_param_grid`: `if out == [{}]: return None`. -/
def gridFinalize : List Conj → Option (List Conj)
  | [[]] => none
  | out => some out

/-- The body of `_build_param_grid` with the recursive call abstracted:
normalise the attribute, run Pass 1, then Pass 2. -/
def bpgRawW (build : BuildFn) (params : List (String × Val)) (attr : Attr) :
    Option (List Conj) := do
  let grid1 ← pass1Loop build params (normAttr attr)
  pass2Loop build grid1

/-- Model of `_build_param_grid(estimator)` with an explicit fuel parameter
(`none` = fuel exhausted; for all claims the fuel is universally quantified
above the structurally required amount). -/
def build_param_grid_core : Nat → List (String × Val) → Attr → Option (Option (List Conj))
  | 0, _, _ => none
  | f + 1, params, attr =>
      (bpgRawW (build_param_grid_core f) params attr).map gridFinalize

/-- The grid obtained after both passes of `_build_param_grid`, before the
`[{}]` check. -/
def build_param_grid_raw (f : Nat) (params : List (String × Val)) (attr : Attr) :
    Option (List Conj) :=
  bpgRawW (build_param_grid_core f) params attr

/-- Model of the wrapper `build_param_grid(estimator)`: `None ↦ {}` (rendered
`Sum.inl []`), a one-element list to its bare Conjunction, anything else
returned whole. -/
def build_param_grid (f : Nat) (params : List (String × Val)) (attr : Attr) :
    Option (Conj ⊕ List Conj) :=
  (build_param_grid_core f params attr).map (fun out =>
    match out with
    | none => Sum.inl []
    | some [c] => Sum.inl c
    | some out' => Sum.inr out')

/-- The `get_params()` mapping of a value (empty for plain values, which the
engine never queries). -/
def paramsOf : Val → List (String × Val)
  | Val.plain _ => []
  | Val.vnode ps _ => ps

/-- The `_param_grid` attribute of a value. -/
def attrOf : Val → Attr
  | Val.plain _ => none
  | Val.vnode _ a => a

/-- Model of `set_grid(estimator, **grid)` on an estimator with parameter
mapping `ps` and previous attribute `a`: stores the keyword mapping `g` as the
node's `_param_grid` attribute and returns the node. -/
def set_grid (ps : List (String × Val)) (_a : Attr) (g : Conj) : Val :=
  Val.vnode ps (some (Sum.inl g))

/-- A Bool-level test for a Pass-2 candidate whose own built grid is `None`
(plain values vacuously satisfy it): exactly the candidates collected into
`no_sub_grid`. -/
def noGridB (build : BuildFn) : Val → Bool
  | Val.vnode ps a2 =>
    match build ps a2 with
    | some none => true
    | _ => false
  | Val.plain _ => true

/-- The `to_update` contribution of one Pass-2 candidate: non-empty exactly for
estimator candidates with a non-`None` built grid. -/
def tuContrib (build : BuildFn) (p : String) : Val → List Conj
  | Val.vnode ps a2 =>
    match build ps a2 with
    | some (some sub) =>
        update_grid [[(p, [Val.vnode ps a2])]] (some sub) (some (p ++ "__"))
    | _ => []
  | Val.plain _ => []

/-- An argument to `make_grid_search`: a non-list object (with or without a
`fit` method) or a list of objects. -/
inductive PyObj : Type where
  | obj : Bool → PyObj
  | lst : List PyObj → PyObj

/-- Errors `_check_estimator` can raise: the `ValueError('Expected estimator,
but ... does not have .fit')` (the spec's `InvalidConfigurationError`), or the
`IndexError` from `estimator[0]` on an empty list. -/
inductive CheckErr : Type where
  | valueError : CheckErr
  | indexError : CheckErr
deriving DecidableEq

/-- Result of `_check_estimator`: the argument unchanged, or the synthetic
`set_grid(Pipeline([('root', lst[0])]), root=lst)` wrapper, recorded as its
step list and its attached grid mapping. -/
inductive CheckResult : Type where
  | unchanged : PyObj → CheckResult
  | wrapped : List (String × PyObj) → List (String × List PyObj) → CheckResult

/-- Model of `_check_estimator(estimator)`. -/
def check_estimator : PyObj → Except CheckErr CheckResult
  | PyObj.lst [] => Except.error CheckErr.indexError
  | PyObj.lst (e0 :: rest) =>
      Except.ok (CheckResult.wrapped [("root", e0)] [("root", e0 :: rest)])
  | PyObj.obj fitCapable =>
      if fitCapable then Except.ok (CheckResult.unchanged (PyObj.obj fitCapable))
      else Except.error CheckErr.valueError

/-- A candidate as seen by the step namer: the `None` sentinel, an estimator
instance of a class named `t`, or an `(estimator, columns)` tuple whose
non-list entry has class name `t`. -/
inductive NVal : Type where
  | pyNone : NVal
  | obj : String → NVal
  | tup : String → NVal
deriving DecidableEq

/-- One argument slot of `make_pipeline`/`make_union`/`make_column_transformer`:
a single candidate or a list of alternatives. -/
inductive SlotIn : Type where
  | single : NVal → SlotIn
  | list : List NVal → SlotIn
deriving DecidableEq

/-- The normalisation `estimators if isinstance(estimators, list) else
[estimators]`. -/
def normSlot : SlotIn → List NVal
  | SlotIn.single e => [e]
  | SlotIn.list l => l

/-- Python `str.lower()` (ASCII behaviour): lowercase every character. -/
def strLower (s : String) : String :=
  String.mk (s.data.map Char.toLower)

/-- Model of `_name_of_estimator`: the lowercased class name; `None` is an
instance of `NoneType`, and for a tuple the `list` entry's type is discarded. -/
def name_of_estimator : NVal → String
  | NVal.pyNone => strLower "NoneType"
  | NVal.obj t => strLower t
  | NVal.tup t => strLower t

/-- The test `estimator is None` used by the removal loop. -/
def isNoneV : NVal → Bool
  | NVal.pyNone => true
  | NVal.obj _ => false
  | NVal.tup _ => false

/-- Helper for `dedupNames`: keep elements not seen before. -/
def dedupAux : List String → List String → List String
  | [], _ => []
  | x :: rest, seen =>
      if x ∈ seen then dedupAux rest seen else x :: dedupAux rest (x :: seen)

/-- First-occurrence deduplication, modelling the set
`{_name_of_estimator(e) for e in estimators}` (only its cardinality and, when
it is a singleton, its sole element are ever used). -/
def dedupNames (l : List String) : List String :=
  dedupAux l []

/-- The base name computed by the first loop of `_name_steps` for one
normalised slot: drop `None` candidates when the slot has more than one
candidate, collect the distinct estimator names, answer `"alt"` when there is
more than one and the sole name otherwise (`none` models the `KeyError` of
`set().pop()` when no name is left). The `default` parameter of `_name_steps`
is never overridden in the library, so `"alt"` is inlined. -/
def stepBaseName (es0 : List NVal) : Option String :=
  let es := if 1 < es0.length then es0.filter (fun e => !(isNoneV e)) else es0
  let ns := dedupNames (es.map name_of_estimator)
  if 1 < ns.length then some "alt" else ns.head?

/-- The first loop of `_name_steps`: one base name per slot. -/
def computeBases : List SlotIn → Option (List String)
  | [] => some []
  | s :: rest => do
    let n ← stepBaseName (normSlot s)
    let ns ← computeBases rest
    some (n :: ns)

/-- Occurrence count of a name in a list (the `namecount` tally). -/
def countS : List String → String → Nat
  | [], _ => 0
  | x :: xs, n => (if x = n then 1 else 0) + countS xs n

/-- The suffixing loop `for i in reversed(range(len(names)))` of `_name_steps`:
the recursion processes the tail (higher indices) first, so the head is
treated last, exactly like the reversed Python loop; `cnt` is the mutable
`namecount` dict and `isKept` its key set after count-1 entries are deleted. -/
def suffixRev (isKept : String → Bool) : List String → (String → Nat) →
    (List String × (String → Nat))
  | [], cnt => ([], cnt)
  | n :: rest, cnt =>
    let pr := suffixRev isKept rest cnt
    if isKept n then
      ((n ++ "-" ++ Nat.repr (pr.2 n)) :: pr.1,
        fun m => if m = n then pr.2 n - 1 else pr.2 m)
    else (n :: pr.1, pr.2)

/-- The collision-suffixing stage of `_name_steps` as a whole: count the base
names, keep the counts that exceed one, and run the reversed suffixing loop. -/
def suffixStage (names : List String) : List String :=
  (suffixRev (fun n => decide (2 ≤ countS names n)) names (fun n => countS names n)).1

/-- The comprehension `[step[0] for step in steps]` (the whole list fails when
some slot is empty, mirroring the `IndexError`; unreachable in `_name_steps`
because the naming loop fails first on such input). -/
def headsOf : List (List NVal) → Option (List NVal)
  | [] => some []
  | l :: rest => do
    let h ← l.head?
    let hs ← headsOf rest
    some (h :: hs)

/-- A Python dict built from a list of key-value pairs (later values win and
keep the first occurrence's position, as in a dict comprehension). -/
def dictOfPairs {α : Type} (pairs : List (String × α)) : List (String × α) :=
  pairs.foldl (fun d kv => setKey d kv.1 kv.2) []

/-- Model of `_name_steps(steps)` (with the default `default='alt'`): the
named steps `zip(names, [step[0] for step in steps])` and the grid
`{k: v for k, v in zip(names, steps) if len(v) > 1}`; `none` models the
uncaught `KeyError` raised when a slot has no usable name. -/
def name_steps (slots : List SlotIn) :
    Option (List (String × NVal) × List (String × List NVal)) := do
  let steps := slots.map normSlot
  let bases ← computeBases slots
  let names := suffixStage bases
  let reps ← headsOf steps
  some (names.zip reps,
    dictOfPairs ((names.zip steps).filter (fun kv => decide (1 < kv.2.length))))

/-- A string containing no hyphen; every base name produced from a Python
class identifier satisfies this, since identifiers cannot contain `-`. -/
def hyphenFree (s : String) : Prop :=
  ('-') ∉ s.data

instance hyphenFreeDecidable (s : String) : Decidable (hyphenFree s) :=
  inferInstanceAs (Decidable (('-') ∉ s.data))

/-- Decimal value of a digit character. -/
def digitVal (c : Char) : Nat :=
  c.toNat - 48

/- ### General helper lemmas -/

theorem strData_inj {s t : String} (h : s.data = t.data) : s = t := by
  cases s; cases t; exact congrArg String.mk h

theorem strData_append (s t : String) : (s ++ t).data = s.data ++ t.data := by
  cases s; cases t; rfl

theorem strEmptyApp (k : String) : "" ++ k = k := by
  cases k; rfl

@[simp]
theorem eq_dunder_iff_false (p k : String) : (p = (p ++ "__") ++ k) ↔ False := by
  constructor
  · intro h
    have hlen := congrArg String.length h
    simp only [String.length_append] at hlen
    have h2 : String.length "__" = 2 := rfl
    omega
  · exact False.elim

@[simp]
theorem dunder_eq_empty_iff_false (p : String) : ((p ++ "__") = "") ↔ False := by
  constructor
  · intro h
    have hlen := congrArg String.length h
    simp only [String.length_append] at hlen
    have h2 : String.length "__" = 2 := rfl
    have h0 : String.length "" = 0 := rfl
    omega
  · exact False.elim

theorem prefConj_none_eq : prefConj none = id :=
  funext fun _ => rfl

theorem prefConj_empty_eq : prefConj (some "") = id :=
  funext fun d => by simp [prefConj]

theorem prefConj_some_ne (p : String) (hp : p ≠ "") :
    prefConj (some p) = fun (d : Conj) => d.map (fun kv => (p ++ kv.1, kv.2)) :=
  funext fun d => by simp [prefConj, hp]

theorem prefixSrc_eq_map (pre : Option String) (s : List Conj) :
    prefixSrc pre s = s.map (prefConj pre) := by
  match pre with
  | none =>
    rw [prefConj_none_eq, List.map_id]
    rfl
  | some p =>
    by_cases hp : p = ""
    · subst hp
      rw [prefConj_empty_eq, List.map_id]
      show (if ("" : String) = "" then s else
          s.map (fun (d : Conj) => d.map (fun kv => ("" ++ kv.1, kv.2)))) = s
      rw [if_pos rfl]
    · rw [prefConj_some_ne p hp]
      show (if p = "" then s else
          s.map (fun (d : Conj) => d.map (fun kv => (p ++ kv.1, kv.2)))) = _
      rw [if_neg hp]

theorem update_grid_some_eq (dest src : List Conj) (pre : Option String) :
    update_grid dest (some src) pre =
      dest.flatMap (fun d1 => (src.map (prefConj pre)).map (fun d2 => dictUpdate d1 d2)) := by
  show dest.flatMap (fun d1 => (prefixSrc pre src).map (fun d2 => dictUpdate d1 d2)) = _
  simp only [prefixSrc_eq_map]

theorem length_flatMap_map {α β γ : Type} (dest : List α) (s : List β) (g : α → β → γ) :
    (dest.flatMap (fun d1 => s.map (g d1))).length = dest.length * s.length := by
  induction dest with
  | nil => simp
  | cons d rest ih =>
      simp only [List.flatMap_cons, List.length_append, List.length_map, ih, List.length_cons]
      ring

theorem getElem?_flatMap_map {α β γ : Type} (dest : List α) (s : List β) (g : α → β → γ) :
    ∀ (i j : Nat), j < s.length →
      (dest.flatMap (fun d1 => s.map (g d1)))[i * s.length + j]? =
        dest[i]?.bind (fun d => (s[j]?).map (g d)) := by
  induction dest with
  | nil => intro i j _; simp
  | cons d rest ih =>
      intro i j hj
      match i with
      | 0 =>
        have hj' : 0 * s.length + j < (s.map (g d)).length := by
          simp only [List.length_map]; omega
        rw [List.flatMap_cons, List.getElem?_append, if_pos hj']
        simp only [Nat.zero_mul, Nat.zero_add, List.getElem?_map, List.getElem?_cons_zero,
          Option.some_bind]
      | i' + 1 =>
        have hmul : (i' + 1) * s.length = i' * s.length + s.length := by ring
        have hlen : (s.map (g d)).length = s.length := by simp
        have hge : ¬ ((i' + 1) * s.length + j < (s.map (g d)).length) := by
          rw [hlen, hmul]; omega
        rw [List.flatMap_cons, List.getElem?_append, if_neg hge, hlen]
        have harith : (i' + 1) * s.length + j - s.length = i' * s.length + j := by
          rw [hmul]; omega
        rw [harith, ih i' j hj, List.getElem?_cons_succ]

theorem lookupV_setKey_self {α : Type} (d : List (String × α)) (k : String) (v : α) :
    lookupV k (setKey d k v) = some v := by
  induction d with
  | nil => simp [setKey, lookupV]
  | cons kv rest ih =>
      obtain ⟨k1, v1⟩ := kv
      by_cases h : k1 = k
      · simp [setKey, h, lookupV]
      · simp [setKey, h, lookupV, ih]

theorem lookupV_setKey_other {α : Type} (d : List (String × α)) (k k' : String) (v : α)
    (h : k' ≠ k) : lookupV k (setKey d k' v) = lookupV k d := by
  induction d with
  | nil => simp [setKey, lookupV, h]
  | cons kv rest ih =>
      obtain ⟨k1, v1⟩ := kv
      by_cases h2 : k1 = k'
      · subst h2
        have hne : ¬ (k1 = k) := fun he => h (he ▸ rfl)
        simp [setKey, lookupV, hne]
      · simp [setKey, h2, lookupV, ih]

theorem lookupV_eq_none_of_not_mem {α : Type} (s : List (String × α)) (k : String)
    (h : k ∉ s.map Prod.fst) : lookupV k s = none := by
  induction s with
  | nil => rfl
  | cons kv rest ih =>
      obtain ⟨k1, v1⟩ := kv
      simp only [List.map_cons, List.mem_cons, not_or] at h
      rw [lookupV, if_neg (fun he => h.1 he.symm), ih h.2]

theorem lookupV_dictUpdate_none {α : Type} (d s : List (String × α)) (k : String)
    (h : lookupV k s = none) : lookupV k (dictUpdate d s) = lookupV k d := by
  induction s generalizing d with
  | nil => rfl
  | cons kv rest ih =>
      obtain ⟨k1, v1⟩ := kv
      rw [lookupV] at h
      by_cases hk : k1 = k
      · rw [if_pos hk] at h; exact absurd h (by simp)
      · rw [if_neg hk] at h
        have hstep : dictUpdate d ((k1, v1) :: rest) = dictUpdate (setKey d k1 v1) rest := rfl
        rw [hstep, ih (setKey d k1 v1) h, lookupV_setKey_other d k k1 v1 hk]

theorem lookupV_dictUpdate_some {α : Type} (d s : List (String × α)) (k : String) (v : α)
    (hnd : (s.map Prod.fst).Nodup) (h : lookupV k s = some v) :
    lookupV k (dictUpdate d s) = some v := by
  induction s generalizing d with
  | nil => exact absurd h (by simp [lookupV])
  | cons kv rest ih =>
      obtain ⟨k1, v1⟩ := kv
      simp only [List.map_cons, List.nodup_cons] at hnd
      rw [lookupV] at h
      have hstep : dictUpdate d ((k1, v1) :: rest) = dictUpdate (setKey d k1 v1) rest := rfl
      by_cases hk : k1 = k
      · rw [if_pos hk] at h
        subst hk
        have hnone : lookupV k1 rest = none :=
          lookupV_eq_none_of_not_mem rest k1 hnd.1
        rw [hstep, lookupV_dictUpdate_none (setKey d k1 v1) rest k1 hnone,
          lookupV_setKey_self, h]
      · rw [if_neg hk] at h
        rw [hstep]
        exact ih (setKey d k1 v1) hnd.2 h

/- ### Claim theorems: merger, Pass 1, attach, checker, namer failure -/

/-- C3: `_update_grid` returns `dest` unchanged when `src` is `None`;
otherwise it produces exactly one Conjunction per pair `(d, s)`, iterated
`dest`-outer / `src`-inner, equal to `d` overlaid with the prefixed `s`,
where `s`'s values win key collisions and `dest`'s keys are untouched; the
output has `|dest| * |src|` Conjunctions and is empty when `dest` is. -/
theorem update_grid_contract (dest src : List Conj) (pre : Option String) :
    update_grid dest none pre = dest
    ∧ (update_grid dest (some src) pre).length = dest.length * src.length
    ∧ update_grid [] (some src) pre = []
    ∧ (∀ (i j : Nat) (hi : i < dest.length) (hj : j < src.length),
        (update_grid dest (some src) pre)[i * src.length + j]? =
          some (dictUpdate dest[i] (prefConj pre src[j])))
    ∧ (∀ (p : String) (d : Conj),
        prefConj (some p) d = d.map (fun kv => (p ++ kv.1, kv.2)))
    ∧ (∀ (d s : Conj) (k : String), (s.map Prod.fst).Nodup →
        (∀ v, lookupV k s = some v → lookupV k (dictUpdate d s) = some v)
        ∧ (lookupV k s = none → lookupV k (dictUpdate d s) = lookupV k d)) := by
  refine ⟨rfl, ?_, ?_, ?_, ?_, ?_⟩
  · rw [update_grid_some_eq, length_flatMap_map, List.length_map]
  · rw [update_grid_some_eq]; rfl
  · intro i j hi hj
    rw [update_grid_some_eq]
    have hlen : src.length = (src.map (prefConj pre)).length := (List.length_map src _).symm
    rw [show i * src.length + j = i * (src.map (prefConj pre)).length + j from by rw [← hlen]]
    rw [getElem?_flatMap_map dest (src.map (prefConj pre))
      (fun d1 d2 => dictUpdate d1 d2) i j (by rw [← hlen]; exact hj)]
    rw [List.getElem?_eq_getElem hi, List.getElem?_map, List.getElem?_eq_getElem hj]
    rfl
  · intro p d
    by_cases hp : p = ""
    · subst hp
      simp [prefConj, strEmptyApp]
    · simp [prefConj, hp]
  · intro d s k hnd
    exact ⟨fun v hv => lookupV_dictUpdate_some d s k v hnd hv,
      fun hn => lookupV_dictUpdate_none d s k hn⟩

/-- C3 witness: the contract evaluated at a concrete one-by-one merge with
prefix `"x__"`, plus the overlay tie-break at a colliding key. -/
theorem update_grid_contract_witness :
    (update_grid [[("a", [Val.plain 1])]] (some [[("b", [Val.plain 2])]])
        (some "x__"))[0 * 1 + 0]? =
      some (dictUpdate [("a", [Val.plain 1])] (prefConj (some "x__") [("b", [Val.plain 2])]))
    ∧ lookupV "a" (dictUpdate [("a", [Val.plain 1])] [("a", [Val.plain 5])]) =
        some [Val.plain 5] :=
  ⟨(update_grid_contract [[("a", [Val.plain 1])]] [[("b", [Val.plain 2])]]
      (some "x__")).2.2.2.1 0 0 (by decide) (by decide),
   ((update_grid_contract [] [] none).2.2.2.2.2
      [("a", [Val.plain 1])] [("a", [Val.plain 5])] "a" (by decide)).1 [Val.plain 5] rfl⟩

/-- C2: in Pass 1 of `_build_param_grid`, a Conjunction that already declares
candidates for the parameter `p` passes through untouched, and one that does
not is merged with the current value's built grid under prefix `p ++ "__"`. -/
theorem pass1_skip_rule (p : String) (vg : Option (List Conj)) (c : Conj)
    (grid : List Conj) :
    (keyMem p c = true →
      pass1Param vg p (c :: grid) = c :: pass1Param vg p grid)
    ∧ (keyMem p c = false →
      pass1Param vg p (c :: grid) =
        update_grid [c] vg (some (p ++ "__")) ++ pass1Param vg p grid) := by
  constructor
  · intro h
    simp only [pass1Param, List.flatMap_cons, h, if_true, List.singleton_append]
  · intro h
    simp only [pass1Param, List.flatMap_cons, h, if_false, Bool.false_eq_true]

/-- C2 witness: both branches evaluated at concrete Conjunctions. -/
theorem pass1_skip_rule_witness :
    pass1Param (some [[("k", [Val.plain 1])]]) "p" ([("p", [Val.plain 0])] :: []) =
      [("p", [Val.plain 0])] :: pass1Param (some [[("k", [Val.plain 1])]]) "p" []
    ∧ pass1Param (some [[("k", [Val.plain 1])]]) "p" ([("q", [Val.plain 0])] :: []) =
        update_grid [[("q", [Val.plain 0])]] (some [[("k", [Val.plain 1])]])
          (some ("p" ++ "__")) ++ pass1Param (some [[("k", [Val.plain 1])]]) "p" [] :=
  ⟨(pass1_skip_rule "p" (some [[("k", [Val.plain 1])]]) [("p", [Val.plain 0])] []).1 rfl,
   (pass1_skip_rule "p" (some [[("k", [Val.plain 1])]]) [("q", [Val.plain 0])] []).2 rfl⟩

/-- C8: `set_grid` overwrites any previous `_param_grid` attribute of the node
with the given mapping, whose Conjunction-sequence normalisation (the form
consumed by the builder) is the one-element sequence `[g]`, and the result
keeps the node's parameters (same node, supporting chaining). -/
theorem set_grid_contract (ps : List (String × Val)) (a : Attr) (g : Conj) :
    paramsOf (set_grid ps a g) = ps
    ∧ attrOf (set_grid ps a g) = some (Sum.inl g)
    ∧ normAttr (attrOf (set_grid ps a g)) = [g] :=
  ⟨rfl, rfl, rfl⟩

/-- C7 counterexample: an empty list argument does raise — `estimator[0]`
fails with an `IndexError` — so "a list argument never raises" is false. -/
theorem check_estimator_empty_list_raises :
    check_estimator (PyObj.lst []) = Except.error CheckErr.indexError := rfl

/-- C7 (amended): `_check_estimator` raises the `ValueError` (the spec's
`InvalidConfigurationError`) exactly on a non-list argument lacking `fit`; a
NON-EMPTY list never raises and is wrapped into a synthetic one-step root
whose slot is named `"root"` with the list registered as its alternatives; an
empty list raises an `IndexError` instead. -/
theorem check_estimator_contract (x : PyObj) (e0 : PyObj) (rest : List PyObj) :
    (check_estimator x = Except.error CheckErr.valueError ↔ x = PyObj.obj false)
    ∧ check_estimator (PyObj.lst (e0 :: rest)) =
        Except.ok (CheckResult.wrapped [("root", e0)] [("root", e0 :: rest)])
    ∧ check_estimator (PyObj.lst []) = Except.error CheckErr.indexError := by
  refine ⟨?_, rfl, rfl⟩
  match x with
  | PyObj.lst [] => simp [check_estimator]
  | PyObj.lst (e :: r) => simp [check_estimator]
  | PyObj.obj true => simp [check_estimator]
  | PyObj.obj false => simp [check_estimator]

/-- C7 witness: the amended contract evaluated at a fit-less object. -/
theorem check_estimator_contract_witness :
    check_estimator (PyObj.obj false) = Except.error CheckErr.valueError :=
  (check_estimator_contract (PyObj.obj false) (PyObj.obj false) []).1.mpr rfl

theorem stepBaseName_replicate_none (n : Nat) :
    stepBaseName (List.replicate (n + 2) NVal.pyNone) = none := by
  have hfilter : ∀ m : Nat,
      (List.replicate m NVal.pyNone).filter (fun e => !(isNoneV e)) = [] := by
    intro m
    induction m with
    | zero => rfl
    | succ m ih => simp [List.replicate_succ, List.filter_cons, isNoneV, ih]
  have h12 : 1 < (List.replicate (n + 2) NVal.pyNone).length := by simp
  simp [stepBaseName, h12, hfilter (n + 2), dedupNames, dedupAux]

theorem computeBases_mid_none (l1 l2 : List SlotIn) (s0 : SlotIn)
    (h : stepBaseName (normSlot s0) = none) :
    computeBases (l1 ++ s0 :: l2) = none := by
  induction l1 with
  | nil => simp [computeBases, h]
  | cons x l1 ih =>
      show (do
        let n ← stepBaseName (normSlot x)
        let ns ← computeBases (l1 ++ s0 :: l2)
        some (n :: ns)) = none
      rw [ih]
      cases stepBaseName (normSlot x) <;> rfl

/-- C10: a slot supplied as a list of two or more candidates that are all the
`None` sentinel makes `_name_steps` fail (every `None` is removed from the
multi-candidate slot, its identity set is empty, and `set().pop()` raises a
`KeyError`), wherever such a slot occurs in the slot list. -/
theorem name_steps_all_none_slot_fails (pre post : List SlotIn) (n : Nat) :
    name_steps (pre ++ SlotIn.list (List.replicate (n + 2) NVal.pyNone) :: post) = none := by
  have h := computeBases_mid_none pre post
    (SlotIn.list (List.replicate (n + 2) NVal.pyNone))
    (by simpa [normSlot] using stepBaseName_replicate_none n)
  simp [name_steps, h]

/- ### Builder claims: normalization, Pass-2 grouping, per-candidate isolation -/

theorem gridFinalize_eq_none_iff (out : List Conj) : gridFinalize out = none ↔ out = [[]] := by
  match out with
  | [] => simp [gridFinalize]
  | [] :: rest =>
      match rest with
      | [] => simp [gridFinalize]
      | r :: rs => simp [gridFinalize]
  | (kv :: c) :: rest => simp [gridFinalize]

theorem build_core_succ (f : Nat) (params : List (String × Val)) (attr : Attr) :
    build_param_grid_core (f + 1) params attr =
      (build_param_grid_raw f params attr).map gridFinalize := rfl

theorem build_wrap_none (f : Nat) (params : List (String × Val)) (attr : Attr)
    (h : build_param_grid_core f params attr = some none) :
    build_param_grid f params attr = some (Sum.inl []) := by
  unfold build_param_grid
  rw [h]
  rfl

theorem build_wrap_single (f : Nat) (params : List (String × Val)) (attr : Attr)
    (c : Conj) (h : build_param_grid_core f params attr = some (some [c])) :
    build_param_grid f params attr = some (Sum.inl c) := by
  unfold build_param_grid
  rw [h]
  rfl

theorem build_wrap_multi (f : Nat) (params : List (String × Val)) (attr : Attr)
    (c1 c2 : Conj) (rest : List Conj)
    (h : build_param_grid_core f params attr = some (some (c1 :: c2 :: rest))) :
    build_param_grid f params attr = some (Sum.inr (c1 :: c2 :: rest)) := by
  unfold build_param_grid
  rw [h]
  rfl

/-- C4: `_build_param_grid` signals "no grid" (`None`) exactly when the grid
left after both passes is `[{}]`; the wrapper `build_param_grid` then returns
the empty mapping in that case, the bare Conjunction when exactly one disjunct
remains, and the whole disjunct sequence when more than one remains. -/
theorem build_param_grid_normalization (f : Nat) (params : List (String × Val))
    (attr : Attr) (out : List Conj) (h : build_param_grid_raw f params attr = some out) :
    (build_param_grid_core (f + 1) params attr = some none ↔ out = [[]])
    ∧ (out = [[]] → build_param_grid (f + 1) params attr = some (Sum.inl []))
    ∧ (∀ c : Conj, out = [c] → c ≠ [] →
        build_param_grid (f + 1) params attr = some (Sum.inl c))
    ∧ (2 ≤ out.length → build_param_grid (f + 1) params attr = some (Sum.inr out)) := by
  have hcore : build_param_grid_core (f + 1) params attr = some (gridFinalize out) := by
    rw [build_core_succ, h]
    rfl
  refine ⟨?_, ?_, ?_, ?_⟩
  · rw [hcore]
    constructor
    · intro he
      have h2 : gridFinalize out = none := by
        injection he
      exact (gridFinalize_eq_none_iff out).mp h2
    · intro he
      subst he
      rfl
  · intro he
    subst he
    exact build_wrap_none (f + 1) params attr hcore
  · intro c hc hne
    subst hc
    match c, hne with
    | kv :: c', _ =>
      exact build_wrap_single (f + 1) params attr (kv :: c') hcore
  · intro hlen
    match out, hlen with
    | c1 :: c2 :: rest, _ =>
      have hg : gridFinalize (c1 :: c2 :: rest) = some (c1 :: c2 :: rest) := by
        cases c1 <;> rfl
      exact build_wrap_multi (f + 1) params attr c1 c2 rest (hg ▸ hcore)

/-- C4 witness: an unannotated leaf (empty parameter mapping, no attribute)
produces raw grid `[{}]`, so the builder signals `None` and the wrapper
returns the empty mapping. -/
theorem build_param_grid_normalization_witness :
    build_param_grid 1 [] none = some (Sum.inl []) :=
  (build_param_grid_normalization 0 [] none [[]] rfl).2.1 rfl

theorem splitCands_spec (build : BuildFn) (p : String) :
    ∀ (values : List Val) (tu : List Conj) (nsg : List Val),
      splitCands build p values = some (tu, nsg) →
      nsg = values.filter (noGridB build) ∧ tu = values.flatMap (tuContrib build p) := by
  intro values
  induction values with
  | nil =>
      intro tu nsg h
      simp only [splitCands, Option.some.injEq, Prod.mk.injEq] at h
      obtain ⟨h1, h2⟩ := h
      subst h1
      subst h2
      exact ⟨rfl, rfl⟩
  | cons v rest ih =>
      intro tu nsg h
      match v with
      | Val.plain n =>
          cases hr : splitCands build p rest with
          | none =>
              simp only [splitCands, hr, Option.bind_eq_bind, Option.none_bind,
                Option.some_bind] at h
              exact Option.noConfusion h
          | some pr =>
              simp only [splitCands, hr, Option.bind_eq_bind, Option.none_bind,
                Option.some_bind, Option.some.injEq, Prod.mk.injEq] at h
              obtain ⟨h1, h2⟩ := h
              subst h1
              subst h2
              have hih := ih pr.1 pr.2 hr
              refine ⟨?_, ?_⟩
              · simp only [List.filter_cons, noGridB, if_pos, List.nil_append]
                rw [← hih.1]
                rfl
              · simp only [List.flatMap_cons, tuContrib, List.nil_append]
                exact hih.2
      | Val.vnode ps a2 =>
          cases hb : build ps a2 with
          | none =>
              simp only [splitCands, hb, Option.bind_eq_bind, Option.none_bind,
                Option.some_bind] at h
              exact Option.noConfusion h
          | some sg =>
              cases hr : splitCands build p rest with
              | none =>
                  cases sg <;>
                    simp only [splitCands, hb, hr, Option.bind_eq_bind, Option.none_bind,
                      Option.some_bind] at h <;>
                    exact Option.noConfusion h
              | some pr =>
                  cases sg with
                  | none =>
                      simp only [splitCands, hb, hr, Option.bind_eq_bind, Option.none_bind,
                        Option.some_bind, Option.some.injEq, Prod.mk.injEq,
                        List.nil_append] at h
                      obtain ⟨h1, h2⟩ := h
                      subst h1
                      subst h2
                      have hih := ih pr.1 pr.2 hr
                      refine ⟨?_, ?_⟩
                      · have hng : noGridB build (Val.vnode ps a2) = true := by
                          simp [noGridB, hb]
                        simp only [List.filter_cons, hng, if_pos]
                        rw [← hih.1]
                        rfl
                      · have htc : tuContrib build p (Val.vnode ps a2) = [] := by
                          simp [tuContrib, hb]
                        simp only [List.flatMap_cons, htc, List.nil_append]
                        exact hih.2
                  | some sub =>
                      simp only [splitCands, hb, hr, Option.bind_eq_bind, Option.none_bind,
                        Option.some_bind, Option.some.injEq, Prod.mk.injEq,
                        List.append_nil, List.nil_append] at h
                      obtain ⟨h1, h2⟩ := h
                      subst h1
                      subst h2
                      have hih := ih pr.1 pr.2 hr
                      refine ⟨?_, ?_⟩
                      · have hng : noGridB build (Val.vnode ps a2) = false := by
                          simp [noGridB, hb]
                        simp only [List.filter_cons, hng, Bool.false_eq_true, if_false]
                        rw [← hih.1]
                      · have htc : tuContrib build p (Val.vnode ps a2) =
                            update_grid [[(p, [Val.vnode ps a2])]] (some sub)
                              (some (p ++ "__")) := by
                          simp [tuContrib, hb]
                        simp only [List.flatMap_cons, htc]
                        rw [← hih.2]

/-- C9: in Pass 2 of `_build_param_grid`, a candidate that is an estimator but
whose recursively built grid is `None` lands in `no_sub_grid` together with
the plain candidates, in their original relative order, contributes nothing to
`to_update`, and the whole `no_sub_grid` list becomes the single fallback
entry `{p: no_sub_grid}` rather than one disjunct per candidate. -/
theorem pass2_no_grid_grouping (f : Nat) (p : String) (values : List Val)
    (tu : List Conj) (nsg : List Val)
    (h : splitCands (build_param_grid_core f) p values = some (tu, nsg)) :
    nsg = values.filter (noGridB (build_param_grid_core f))
    ∧ tu = values.flatMap (tuContrib (build_param_grid_core f) p)
    ∧ (∀ (items : List (String × List Val)) (part : List Conj), nsg ≠ [] →
        pass2Conj (build_param_grid_core f) ((p, values) :: items) part =
          pass2Conj (build_param_grid_core f) items
            (update_grid part (some (tu ++ [[(p, nsg)]])) none)) := by
  have hs := splitCands_spec (build_param_grid_core f) p values tu nsg h
  refine ⟨hs.1, hs.2, ?_⟩
  intro items part hne
  show (do
    let tup ← splitCands (build_param_grid_core f) p values
    let to_update := if tup.2.isEmpty then tup.1 else tup.1 ++ [[(p, tup.2)]]
    pass2Conj (build_param_grid_core f) items
      (update_grid part (some to_update) none)) = _
  rw [h]
  have hemp : nsg.isEmpty = false := by
    cases nsg with
    | nil => exact absurd rfl hne
    | cons a b => rfl
  simp [hemp]

/-- C9 witness: an estimator candidate with no annotation (whose built grid is
`None`) is kept in the fallback list alongside the plain candidates, in the
declared order. -/
theorem pass2_no_grid_grouping_witness :
    ([Val.plain 5, Val.vnode [] none, Val.plain 7] : List Val) =
      [Val.plain 5, Val.vnode [] none, Val.plain 7].filter
        (noGridB (build_param_grid_core 1)) :=
  (pass2_no_grid_grouping 1 "p" [Val.plain 5, Val.vnode [] none, Val.plain 7]
    [] [Val.plain 5, Val.vnode [] none, Val.plain 7] rfl).1

theorem pass1Loop_plains (build : BuildFn) (ps : List (String × Nat)) :
    ∀ grid : List Conj,
      pass1Loop build (ps.map (fun q => (q.1, Val.plain q.2))) grid = some grid := by
  induction ps with
  | nil => intro grid; rfl
  | cons q rest ih => intro grid; exact ih grid

/-- C1: for a node whose annotation gives parameter `p` the candidates
`[a, b]`, where `a` is an estimator annotated `{k: [v1, v2]}` and `b` is
plain (and all of the node's own parameters hold plain values), the built
grid is exactly one disjunct `{p: [a], p__k: [v1, v2]}` and a separate
disjunct `{p: [b]}` with no `p__k` key: `b` never receives `a`'s sub-grid. -/
theorem per_candidate_grid_isolation (ps : List (String × Nat)) (p k : String)
    (v1 v2 b : Nat) (f : Nat) :
    build_param_grid_core (f + 2) (ps.map (fun q => (q.1, Val.plain q.2)))
        (some (Sum.inl [(p,
          [Val.vnode [] (some (Sum.inl [(k, [Val.plain v1, Val.plain v2])])),
           Val.plain b])])) =
      some (some
        [[(p, [Val.vnode [] (some (Sum.inl [(k, [Val.plain v1, Val.plain v2])]))]),
          ((p ++ "__") ++ k, [Val.plain v1, Val.plain v2])],
         [(p, [Val.plain b])]]) := by
  have hinner : build_param_grid_core (f + 1) []
      (some (Sum.inl [(k, [Val.plain v1, Val.plain v2])])) =
      some (some [[(k, [Val.plain v1, Val.plain v2])]]) := by
    rw [build_core_succ f [] (some (Sum.inl [(k, [Val.plain v1, Val.plain v2])]))]
    simp [build_param_grid_raw, bpgRawW, pass1Loop, normAttr, pass2Loop, pass2Conj,
      splitCands, update_grid, prefixSrc, dictUpdate, setKey, gridFinalize]
  rw [build_core_succ (f + 1)]
  simp [build_param_grid_raw, bpgRawW, pass1Loop, pass1Loop_plains, normAttr, pass2Loop,
    pass2Conj, splitCands, hinner, update_grid, prefixSrc, dictUpdate, setKey, gridFinalize]

/- ### Decimal representation lemmas (for the `-%d` suffixes) -/

theorem digitVal_digitChar (d : Nat) (h : d < 10) :
    digitVal (Nat.digitChar d) = d := by
  interval_cases d <;> decide

theorem digitChar_ne_hyphen (d : Nat) (h : d < 10) : Nat.digitChar d ≠ '-' := by
  interval_cases d <;> decide

theorem toDigitsCore_succ_eq (fuel n : Nat) (ds : List Char) :
    Nat.toDigitsCore 10 (fuel + 1) n ds =
      if n / 10 = 0 then Nat.digitChar (n % 10) :: ds
      else Nat.toDigitsCore 10 fuel (n / 10) (Nat.digitChar (n % 10) :: ds) := rfl

theorem toDigitsCore_foldl :
    ∀ (fuel n : Nat) (ds : List Char), n < fuel →
      (Nat.toDigitsCore 10 fuel n ds).foldl (fun a c => a * 10 + digitVal c) 0 =
        ds.foldl (fun a c => a * 10 + digitVal c) n := by
  intro fuel
  induction fuel with
  | zero => intro n ds h; exact absurd h (Nat.not_lt_zero n)
  | succ fuel ih =>
      intro n ds h
      rw [toDigitsCore_succ_eq]
      by_cases h0 : n / 10 = 0
      · rw [if_pos h0, List.foldl_cons, digitVal_digitChar (n % 10) (Nat.mod_lt n (by norm_num))]
        rw [show 0 * 10 + n % 10 = n from by omega]
      · rw [if_neg h0]
        have hlt : n / 10 < fuel := by
          have h1 : n / 10 < n := Nat.div_lt_self (by omega) (by norm_num)
          omega
        rw [ih (n / 10) (Nat.digitChar (n % 10) :: ds) hlt, List.foldl_cons,
          digitVal_digitChar (n % 10) (Nat.mod_lt n (by norm_num)),
          show n / 10 * 10 + n % 10 = n from by omega]

theorem repr_decode (n : Nat) :
    (Nat.toDigits 10 n).foldl (fun a c => a * 10 + digitVal c) 0 = n :=
  toDigitsCore_foldl (n + 1) n [] (Nat.lt_succ_self n)

theorem repr_inj (m n : Nat) (h : Nat.repr m = Nat.repr n) : m = n := by
  have hd : Nat.toDigits 10 m = Nat.toDigits 10 n := congrArg String.data h
  calc m = (Nat.toDigits 10 m).foldl (fun a c => a * 10 + digitVal c) 0 :=
        (repr_decode m).symm
    _ = (Nat.toDigits 10 n).foldl (fun a c => a * 10 + digitVal c) 0 := by rw [hd]
    _ = n := repr_decode n

theorem hyphen_not_mem_toDigitsCore :
    ∀ (fuel n : Nat) (ds : List Char), ('-') ∉ ds → ('-') ∉ Nat.toDigitsCore 10 fuel n ds := by
  intro fuel
  induction fuel with
  | zero => intro n ds h; exact h
  | succ fuel ih =>
      intro n ds h
      rw [toDigitsCore_succ_eq]
      by_cases h0 : n / 10 = 0
      · rw [if_pos h0]
        intro hmem
        rcases List.mem_cons.mp hmem with h1 | h1
        · exact digitChar_ne_hyphen (n % 10) (Nat.mod_lt n (by norm_num)) h1.symm
        · exact h h1
      · rw [if_neg h0]
        apply ih
        intro hmem
        rcases List.mem_cons.mp hmem with h1 | h1
        · exact digitChar_ne_hyphen (n % 10) (Nat.mod_lt n (by norm_num)) h1.symm
        · exact h h1

theorem hyphen_not_mem_repr (n : Nat) : ('-') ∉ (Nat.repr n).data :=
  hyphen_not_mem_toDigitsCore (n + 1) n [] (by simp)

/- ### Splitting a hyphen-suffixed name -/

theorem append_cons_inj :
    ∀ (l1 l2 t1 t2 : List Char), ('-') ∉ l1 → ('-') ∉ l2 →
      l1 ++ '-' :: t1 = l2 ++ '-' :: t2 → l1 = l2 ∧ t1 = t2 := by
  intro l1
  induction l1 with
  | nil =>
      intro l2 t1 t2 h1 h2 h
      match l2 with
      | [] =>
          simp only [List.nil_append, List.cons.injEq] at h
          exact ⟨rfl, h.2⟩
      | c :: l2' =>
          simp only [List.nil_append, List.cons_append, List.cons.injEq] at h
          exfalso
          apply h2
          rw [← h.1]
          exact List.mem_cons_self _ _
  | cons c l1' ih =>
      intro l2 t1 t2 h1 h2 h
      match l2 with
      | [] =>
          simp only [List.cons_append, List.nil_append, List.cons.injEq] at h
          exfalso
          apply h1
          rw [h.1]
          exact List.mem_cons_self '-' l1'
      | c2 :: l2' =>
          simp only [List.cons_append, List.cons.injEq] at h
          obtain ⟨hc, hrest⟩ := h
          have h1' : ('-') ∉ l1' := fun hm => h1 (List.mem_cons_of_mem c hm)
          have h2' : ('-') ∉ l2' := fun hm => h2 (List.mem_cons_of_mem c2 hm)
          obtain ⟨ha, hb⟩ := ih l2' t1 t2 h1' h2' hrest
          exact ⟨by rw [hc, ha], hb⟩

theorem hyphen_append_inj (b1 b2 r1 r2 : String) (h1 : hyphenFree b1) (h2 : hyphenFree b2)
    (h : b1 ++ "-" ++ r1 = b2 ++ "-" ++ r2) : b1 = b2 ∧ r1 = r2 := by
  have hd := congrArg String.data h
  rw [strData_append (b1 ++ "-") r1, strData_append b1 "-",
    strData_append (b2 ++ "-") r2, strData_append b2 "-",
    List.append_assoc, List.append_assoc] at hd
  have hsplit := append_cons_inj b1.data b2.data r1.data r2.data h1 h2 hd
  exact ⟨strData_inj hsplit.1, strData_inj hsplit.2⟩

theorem hyphen_mem_suffixed (b r : String) : ('-') ∈ (b ++ "-" ++ r).data := by
  rw [strData_append (b ++ "-") r, strData_append b "-"]
  simp

/- ### Counting occurrences -/

theorem countS_append (l1 l2 : List String) (x : String) :
    countS (l1 ++ l2) x = countS l1 x + countS l2 x := by
  induction l1 with
  | nil => simp [countS]
  | cons a l1 ih =>
      show (if a = x then 1 else 0) + countS (l1 ++ l2) x =
        ((if a = x then 1 else 0) + countS l1 x) + countS l2 x
      rw [ih]
      omega

theorem countS_pos_of_mem (l : List String) (x : String) (h : x ∈ l) : 1 ≤ countS l x := by
  induction l with
  | nil => simp at h
  | cons a l ih =>
      rcases List.mem_cons.mp h with h1 | h1
      · subst h1
        show 1 ≤ (if x = x then 1 else 0) + countS l x
        rw [if_pos rfl]
        omega
      · have hc := ih h1
        show 1 ≤ (if a = x then 1 else 0) + countS l x
        by_cases hax : a = x
        · rw [if_pos hax]; omega
        · rw [if_neg hax]; omega

theorem countS_take_drop (l : List String) (k : Nat) (x : String) :
    countS l x = countS (l.take k) x + countS (l.drop k) x := by
  conv_lhs => rw [← List.take_append_drop k l]
  exact countS_append _ _ x

theorem getElem_idx_congr {α : Type} (l : List α) (a b : Nat) (hab : a = b)
    (ha : a < l.length) (hb : b < l.length) : l[a] = l[b] := by
  subst hab
  rfl

theorem mem_take_of_getElem (l : List String) (i : Nat) (hi : i < l.length) :
    l[i] ∈ l.take (i + 1) := by
  have hlen : i < (l.take (i + 1)).length := by
    simp only [List.length_take]
    omega
  have heq : (l.take (i + 1))[i] = l[i] := List.getElem_take l
  rw [← heq]
  exact List.getElem_mem hlen

theorem countS_take_lt (l : List String) (i j : Nat) (hij : i < j) (hj : j < l.length)
    (hi : i < l.length) (hx : l[j] = l[i]) :
    countS (l.take (i + 1)) l[i] < countS (l.take (j + 1)) l[i] := by
  have hsplit : l.take (j + 1) = l.take (i + 1) ++ (l.drop (i + 1)).take (j - i) := by
    rw [show j + 1 = (i + 1) + (j - i) from by omega, List.take_add]
  rw [hsplit, countS_append]
  have hidx : j - i - 1 < ((l.drop (i + 1)).take (j - i)).length := by
    simp only [List.length_take, List.length_drop]
    omega
  have hidx2 : j - i - 1 < (l.drop (i + 1)).length := by
    simp only [List.length_drop]
    omega
  have hidx3 : (i + 1) + (j - i - 1) < l.length := by omega
  have heq1 : ((l.drop (i + 1)).take (j - i))[j - i - 1] = (l.drop (i + 1))[j - i - 1] :=
    List.getElem_take _
  have heq2 : (l.drop (i + 1))[j - i - 1] = l[(i + 1) + (j - i - 1)] :=
    List.getElem_drop l
  have heq3 : l[(i + 1) + (j - i - 1)] = l[i] :=
    (getElem_idx_congr l ((i + 1) + (j - i - 1)) j (by omega) hidx3 hj).trans hx
  have hmem : l[i] ∈ (l.drop (i + 1)).take (j - i) := by
    rw [← heq3, ← heq2, ← heq1]
    exact List.getElem_mem hidx
  have h1 := countS_pos_of_mem _ _ hmem
  omega

theorem countS_two (l : List String) (i j : Nat) (hi : i < l.length) (hj : j < l.length)
    (hij : i ≠ j) (hx : l[i] = l[j]) : 2 ≤ countS l l[i] := by
  rcases Nat.lt_or_ge i j with hlt | hge
  · have h1 := countS_take_lt l i j hlt hj hi hx.symm
    have h2 := countS_pos_of_mem _ _ (mem_take_of_getElem l i hi)
    have h3 := countS_take_drop l (j + 1) l[i]
    omega
  · have hlt : j < i := by omega
    have h1 := countS_take_lt l j i hlt hi hj hx
    have h2 := countS_pos_of_mem _ _ (mem_take_of_getElem l j hj)
    have h3 := countS_take_drop l (i + 1) (l[j])
    rw [hx]
    omega

/- ### The reversed suffixing loop -/

theorem suffixRev_snd (isKept : String → Bool) :
    ∀ (l : List String) (cnt : String → Nat) (m : String),
      (suffixRev isKept l cnt).2 m =
        if isKept m then cnt m - countS l m else cnt m := by
  intro l
  induction l with
  | nil =>
      intro cnt m
      show cnt m = if isKept m then cnt m - countS [] m else cnt m
      by_cases hk : isKept m = true
      · rw [if_pos hk]
        show cnt m = cnt m - 0
        omega
      · rw [if_neg hk]
  | cons n rest ih =>
      intro cnt m
      simp only [suffixRev]
      by_cases hk : isKept n = true
      · rw [if_pos hk]
        show (fun m2 => if m2 = n then (suffixRev isKept rest cnt).2 n - 1
          else (suffixRev isKept rest cnt).2 m2) m = _
        by_cases hmn : m = n
        · subst hmn
          simp only [if_pos rfl]
          rw [ih cnt m, if_pos hk, if_pos hk]
          show cnt m - countS rest m - 1 = cnt m - ((if m = m then 1 else 0) + countS rest m)
          rw [if_pos rfl]
          omega
        · simp only [if_neg hmn]
          rw [ih cnt m]
          have hnm : ¬ (n = m) := fun hh => hmn hh.symm
          show (if isKept m then cnt m - countS rest m else cnt m) =
            if isKept m then cnt m - ((if n = m then 1 else 0) + countS rest m) else cnt m
          rw [if_neg hnm]
          by_cases hkm : isKept m = true
          · rw [if_pos hkm, if_pos hkm]
            omega
          · rw [if_neg hkm, if_neg hkm]
      · rw [if_neg hk]
        show (suffixRev isKept rest cnt).2 m = _
        rw [ih cnt m]
        by_cases hmn : m = n
        · subst hmn
          rw [if_neg hk, if_neg hk]
        · have hnm : ¬ (n = m) := fun hh => hmn hh.symm
          show (if isKept m then cnt m - countS rest m else cnt m) =
            if isKept m then cnt m - ((if n = m then 1 else 0) + countS rest m) else cnt m
          rw [if_neg hnm]
          by_cases hkm : isKept m = true
          · rw [if_pos hkm, if_pos hkm]
            omega
          · rw [if_neg hkm, if_neg hkm]

theorem suffixRev_fst_length (isKept : String → Bool) :
    ∀ (l : List String) (cnt : String → Nat),
      (suffixRev isKept l cnt).1.length = l.length := by
  intro l
  induction l with
  | nil => intro cnt; rfl
  | cons n rest ih =>
      intro cnt
      simp only [suffixRev]
      by_cases hk : isKept n = true
      · rw [if_pos hk]
        show ((n ++ "-" ++ Nat.repr ((suffixRev isKept rest cnt).2 n)) ::
          (suffixRev isKept rest cnt).1).length = _
        simp [ih cnt]
      · rw [if_neg hk]
        show (n :: (suffixRev isKept rest cnt).1).length = _
        simp [ih cnt]

theorem suffixRev_fst_getElem? (isKept : String → Bool) :
    ∀ (l : List String) (cnt : String → Nat) (i : Nat) (hi : i < l.length),
      (suffixRev isKept l cnt).1[i]? =
        some (if isKept (l[i]) then
          l[i] ++ "-" ++ Nat.repr (cnt (l[i]) - countS (l.drop (i + 1)) (l[i]))
        else l[i]) := by
  intro l
  induction l with
  | nil => intro cnt i hi; exact absurd hi (by simp)
  | cons n rest ih =>
      intro cnt i hi
      simp only [suffixRev]
      match i with
      | 0 =>
          by_cases hk : isKept n = true
          · rw [if_pos hk]
            show ((n ++ "-" ++ Nat.repr ((suffixRev isKept rest cnt).2 n)) ::
              (suffixRev isKept rest cnt).1)[0]? = _
            rw [List.getElem?_cons_zero]
            rw [suffixRev_snd isKept rest cnt n]
            rw [if_pos hk]
            show _ = some (if isKept ((n :: rest)[0]) then
              (n :: rest)[0] ++ "-" ++
                Nat.repr (cnt ((n :: rest)[0]) -
                  countS ((n :: rest).drop 1) ((n :: rest)[0]))
            else (n :: rest)[0])
            rw [show ((n :: rest)[0] = n) from rfl]
            rw [if_pos hk]
            rfl
          · rw [if_neg hk]
            show (n :: (suffixRev isKept rest cnt).1)[0]? = _
            rw [List.getElem?_cons_zero]
            rw [show ((n :: rest)[0] = n) from rfl]
            rw [if_neg hk]
      | i' + 1 =>
          have hi' : i' < rest.length := by
            simpa using hi
          by_cases hk : isKept n = true
          · rw [if_pos hk]
            show ((n ++ "-" ++ Nat.repr ((suffixRev isKept rest cnt).2 n)) ::
              (suffixRev isKept rest cnt).1)[i' + 1]? = _
            rw [List.getElem?_cons_succ, ih cnt i' hi']
            rfl
          · rw [if_neg hk]
            show (n :: (suffixRev isKept rest cnt).1)[i' + 1]? = _
            rw [List.getElem?_cons_succ, ih cnt i' hi']
            rfl

theorem suffixStage_length (names : List String) :
    (suffixStage names).length = names.length :=
  suffixRev_fst_length _ names _

theorem suffixStage_getElem? (names : List String) (i : Nat) (hi : i < names.length) :
    (suffixStage names)[i]? =
      some (if 2 ≤ countS names (names[i]) then
        names[i] ++ "-" ++ Nat.repr (countS (names.take (i + 1)) (names[i]))
      else names[i]) := by
  unfold suffixStage
  rw [suffixRev_fst_getElem? _ names _ i hi]
  congr 1
  have hsplit := countS_take_drop names (i + 1) (names[i])
  by_cases hc : 2 ≤ countS names (names[i])
  · rw [if_pos (decide_eq_true hc), if_pos hc]
    have harg : countS names (names[i]) - countS (names.drop (i + 1)) (names[i]) =
        countS (names.take (i + 1)) (names[i]) := by omega
    rw [harg]
  · rw [if_neg (fun hd => hc (of_decide_eq_true hd)), if_neg hc]

theorem suffixStage_nodup (names : List String) (hfree : ∀ b ∈ names, hyphenFree b) :
    (suffixStage names).Nodup := by
  rw [List.nodup_iff_injective_get]
  intro a b hab
  obtain ⟨i, hi⟩ := a
  obtain ⟨j, hj⟩ := b
  have hlen := suffixStage_length names
  have hi' : i < names.length := by omega
  have hj' : j < names.length := by omega
  apply Fin.ext
  show i = j
  by_contra hne
  have hgi : (suffixStage names)[i]? = some ((suffixStage names).get ⟨i, hi⟩) := by
    rw [List.get_eq_getElem, List.getElem?_eq_getElem hi]
  have hgj : (suffixStage names)[j]? = some ((suffixStage names).get ⟨j, hj⟩) := by
    rw [List.get_eq_getElem, List.getElem?_eq_getElem hj]
  rw [suffixStage_getElem? names i hi'] at hgi
  rw [suffixStage_getElem? names j hj'] at hgj
  rw [hab] at hgi
  have hvv : (if 2 ≤ countS names (names[i]) then
      names[i] ++ "-" ++ Nat.repr (countS (names.take (i + 1)) (names[i]))
    else names[i]) =
      (if 2 ≤ countS names (names[j]) then
      names[j] ++ "-" ++ Nat.repr (countS (names.take (j + 1)) (names[j]))
    else names[j]) := by
    have := hgi.trans hgj.symm
    exact Option.some.inj this
  have hfi : hyphenFree (names[i]) := hfree _ (List.getElem_mem hi')
  have hfj : hyphenFree (names[j]) := hfree _ (List.getElem_mem hj')
  by_cases ci : 2 ≤ countS names (names[i]) <;>
    by_cases cj : 2 ≤ countS names (names[j])
  · rw [if_pos ci, if_pos cj] at hvv
    obtain ⟨hbase, hsuf⟩ := hyphen_append_inj _ _ _ _ hfi hfj hvv
    have hcnt := repr_inj _ _ hsuf
    rw [← hbase] at hcnt
    rcases Nat.lt_or_ge i j with hlt | hge
    · have := countS_take_lt names i j hlt hj' hi' hbase.symm
      omega
    · have hlt : j < i := by omega
      have := countS_take_lt names j i hlt hi' hj' hbase
      rw [← hbase] at this
      omega
  · rw [if_pos ci, if_neg cj] at hvv
    have hmem : ('-') ∈ (names[j]).data := by
      rw [← hvv]
      exact hyphen_mem_suffixed _ _
    exact hfj hmem
  · rw [if_neg ci, if_pos cj] at hvv
    have hmem : ('-') ∈ (names[i]).data := by
      rw [hvv]
      exact hyphen_mem_suffixed _ _
    exact hfi hmem
  · rw [if_neg ci, if_neg cj] at hvv
    have h2 := countS_two names i j hi' hj' hne hvv
    omega

/- ### The naming pipeline -/

theorem computeBases_length :
    ∀ (slots : List SlotIn) (bases : List String), computeBases slots = some bases →
      bases.length = slots.length := by
  intro slots
  induction slots with
  | nil =>
      intro bases h
      simp only [computeBases, Option.some.injEq] at h
      subst h
      rfl
  | cons s rest ih =>
      intro bases h
      cases hs : stepBaseName (normSlot s) with
      | none =>
          simp only [computeBases, hs, Option.bind_eq_bind, Option.none_bind] at h
          exact Option.noConfusion h
      | some n =>
          cases hr : computeBases rest with
          | none =>
              simp only [computeBases, hs, hr, Option.bind_eq_bind, Option.none_bind,
                Option.some_bind] at h
              exact Option.noConfusion h
          | some ns =>
              simp only [computeBases, hs, hr, Option.bind_eq_bind, Option.some_bind,
                Option.some.injEq] at h
              subst h
              simp [ih ns hr]

theorem computeBases_getElem? :
    ∀ (slots : List SlotIn) (bases : List String), computeBases slots = some bases →
      ∀ (i : Nat) (hi : i < slots.length),
        stepBaseName (normSlot (slots[i])) = bases[i]? := by
  intro slots
  induction slots with
  | nil => intro bases h i hi; exact absurd hi (by simp)
  | cons s rest ih =>
      intro bases h i hi
      cases hs : stepBaseName (normSlot s) with
      | none =>
          simp only [computeBases, hs, Option.bind_eq_bind, Option.none_bind] at h
          exact Option.noConfusion h
      | some n =>
          cases hr : computeBases rest with
          | none =>
              simp only [computeBases, hs, hr, Option.bind_eq_bind, Option.none_bind,
                Option.some_bind] at h
              exact Option.noConfusion h
          | some ns =>
              simp only [computeBases, hs, hr, Option.bind_eq_bind, Option.some_bind,
                Option.some.injEq] at h
              subst h
              match i with
              | 0 => simpa using hs
              | i' + 1 =>
                  have hi' : i' < rest.length := by simpa using hi
                  simpa using ih ns hr i' hi'

theorem headsOf_getElem? :
    ∀ (steps : List (List NVal)) (reps : List NVal), headsOf steps = some reps →
      reps.length = steps.length ∧
      ∀ (i : Nat) (hi : i < steps.length), (steps[i]).head? = reps[i]? := by
  intro steps
  induction steps with
  | nil =>
      intro reps h
      simp only [headsOf, Option.some.injEq] at h
      subst h
      exact ⟨rfl, fun i hi => absurd hi (by simp)⟩
  | cons l rest ih =>
      intro reps h
      cases hl : l.head? with
      | none =>
          simp only [headsOf, hl, Option.bind_eq_bind, Option.none_bind] at h
          exact Option.noConfusion h
      | some x =>
          cases hr : headsOf rest with
          | none =>
              simp only [headsOf, hl, hr, Option.bind_eq_bind, Option.none_bind,
                Option.some_bind] at h
              exact Option.noConfusion h
          | some xs =>
              simp only [headsOf, hl, hr, Option.bind_eq_bind, Option.some_bind,
                Option.some.injEq] at h
              subst h
              obtain ⟨hlen, hidx⟩ := ih xs hr
              refine ⟨by simp [hlen], ?_⟩
              intro i hi
              match i with
              | 0 => simpa using hl
              | i' + 1 =>
                  have hi' : i' < rest.length := by simpa using hi
                  simpa using hidx i' hi'

theorem setKey_fresh {α : Type} :
    ∀ (d : List (String × α)) (k : String) (v : α), k ∉ d.map Prod.fst →
      setKey d k v = d ++ [(k, v)] := by
  intro d
  induction d with
  | nil => intro k v _; rfl
  | cons kv rest ih =>
      intro k v h
      obtain ⟨k1, v1⟩ := kv
      simp only [List.map_cons, List.mem_cons, not_or] at h
      show (if k1 = k then (k1, v) :: rest else (k1, v1) :: setKey rest k v) = _
      rw [if_neg (fun he => h.1 he.symm), ih k v h.2]
      rfl

theorem foldl_setKey_fresh {α : Type} :
    ∀ (pairs acc : List (String × α)),
      (pairs.map Prod.fst).Nodup →
      (∀ x ∈ pairs.map Prod.fst, x ∉ acc.map Prod.fst) →
      pairs.foldl (fun d kv => setKey d kv.1 kv.2) acc = acc ++ pairs := by
  intro pairs
  induction pairs with
  | nil => intro acc _ _; simp
  | cons kv rest ih =>
      intro acc hnd hfresh
      obtain ⟨k1, v1⟩ := kv
      simp only [List.map_cons, List.nodup_cons] at hnd
      have hk1 : k1 ∉ acc.map Prod.fst := hfresh k1 (by simp)
      have hf : ∀ x ∈ rest.map Prod.fst, x ∉ (acc ++ [(k1, v1)]).map Prod.fst := by
        intro x hx
        rw [List.map_append]
        intro hmem
        rcases List.mem_append.mp hmem with hm | hm
        · exact hfresh x (List.mem_cons_of_mem _ hx) hm
        · simp only [List.map_cons, List.map_nil, List.mem_singleton] at hm
          subst hm
          exact hnd.1 hx
      show rest.foldl (fun d kv => setKey d kv.1 kv.2) (setKey acc k1 v1) = _
      rw [setKey_fresh acc k1 v1 hk1, ih (acc ++ [(k1, v1)]) hnd.2 hf]
      simp

theorem dictOfPairs_nodup {α : Type} (pairs : List (String × α))
    (h : (pairs.map Prod.fst).Nodup) : dictOfPairs pairs = pairs := by
  have hh := foldl_setKey_fresh pairs [] h (by simp)
  simpa [dictOfPairs] using hh

theorem zip_getElem? {α β : Type} :
    ∀ (a : List α) (b : List β) (i : Nat) (ha : i < a.length) (hb : i < b.length),
      (a.zip b)[i]? = some (a[i], b[i]) := by
  intro a
  induction a with
  | nil => intro b i ha _; exact absurd ha (by simp)
  | cons x a ih =>
      intro b i ha hb
      match b with
      | [] => exact absurd hb (by simp)
      | y :: b' =>
          match i with
          | 0 => simp [List.zip_cons_cons]
          | i' + 1 =>
              show ((x, y) :: a.zip b')[i' + 1]? = _
              rw [List.getElem?_cons_succ]
              have := ih b' i' (by simpa using ha) (by simpa using hb)
              rw [this]
              rfl

theorem filter_map_length {α β : Type} (f : α → β) (p : β → Bool) :
    ∀ (l : List α), ((l.map f).filter p).length = (l.filter (fun x => p (f x))).length := by
  intro l
  induction l with
  | nil => rfl
  | cons x l ih =>
      simp only [List.map_cons, List.filter_cons]
      by_cases hp : p (f x) = true
      · rw [if_pos hp, if_pos hp]
        simp [ih]
      · rw [if_neg hp, if_neg hp]
        exact ih

theorem zip_filter_snd_length {α β : Type} (p : β → Bool) :
    ∀ (a : List α) (b : List β), a.length = b.length →
      ((a.zip b).filter (fun kv => p kv.2)).length = (b.filter p).length := by
  intro a
  induction a with
  | nil =>
      intro b h
      match b with
      | [] => rfl
      | y :: b' => simp at h
  | cons x a ih =>
      intro b h
      match b with
      | [] => simp at h
      | y :: b' =>
          have h' : a.length = b'.length := by simpa using h
          show (((x, y) :: a.zip b').filter (fun kv => p kv.2)).length = _
          simp only [List.filter_cons]
          by_cases hp : p y = true
          · rw [if_pos hp, if_pos hp]
            simp [ih b' h']
          · rw [if_neg hp, if_neg hp]
            exact ih b' h'

/-- C5 counterexample: with a (dynamically created) class literally named
`Alt-2`, the suffixed names collide with the literal base name, so the final
names are NOT all unique: `['alt-1', 'alt-2', 'alt-2']`. -/
theorem name_steps_names_not_unique :
    (name_steps [SlotIn.list [NVal.obj "A", NVal.obj "B"],
                 SlotIn.list [NVal.obj "C", NVal.obj "D"],
                 SlotIn.single (NVal.obj "Alt-2")]).map (fun r => r.1.map Prod.fst) =
      some ["alt-1", "alt-2", "alt-2"]
    ∧ ¬ (["alt-1", "alt-2", "alt-2"] : List String).Nodup := by
  constructor
  · decide
  · decide

/-- C5 (amended): for every slot list on which `_name_steps` succeeds, each
slot's base name follows the identity-set rule embodied in `stepBaseName`
(single lowercased type identifier, `None` ignored in multi-candidate slots
and kept when alone, the token `"alt"` for mixed types); every base name
occurring at least twice receives the 1-based suffix equal to its occurrence
index in slot order while non-colliding base names stay unsuffixed; and the
final names are all distinct PROVIDED no base name contains a hyphen (true
for names derived from Python class identifiers). -/
theorem name_steps_naming (slots : List SlotIn) (bases : List String)
    (hb : computeBases slots = some bases) :
    bases.length = slots.length
    ∧ (∀ (i : Nat) (hi : i < slots.length),
        stepBaseName (normSlot (slots[i])) = bases[i]?)
    ∧ (suffixStage bases).length = slots.length
    ∧ (∀ (i : Nat) (hi : i < bases.length),
        (suffixStage bases)[i]? =
          some (if 2 ≤ countS bases (bases[i]) then
            bases[i] ++ "-" ++ Nat.repr (countS (bases.take (i + 1)) (bases[i]))
          else bases[i]))
    ∧ ((∀ b ∈ bases, hyphenFree b) → (suffixStage bases).Nodup) := by
  have hlen := computeBases_length slots bases hb
  refine ⟨hlen, computeBases_getElem? slots bases hb, ?_, ?_, suffixStage_nodup bases⟩
  · rw [suffixStage_length, hlen]
  · intro i hi
    exact suffixStage_getElem? bases i hi

/-- C5 witness: slots `[[T(), None], T(), [A(), B()]]` give bases
`['t', 't', 'alt']`; the two `'t'` slots get suffixes `-1`, `-2` in slot
order, `'alt'` stays bare, and the final names are distinct. -/
theorem name_steps_naming_witness :
    stepBaseName (normSlot ((([SlotIn.list [NVal.obj "T", NVal.pyNone],
        SlotIn.single (NVal.obj "T"),
        SlotIn.list [NVal.obj "A", NVal.obj "B"]] : List SlotIn))[0])) =
      (["t", "t", "alt"] : List String)[0]?
    ∧ (suffixStage ["t", "t", "alt"])[1]? = some "t-2"
    ∧ (suffixStage ["t", "t", "alt"]).Nodup := by
  have h := name_steps_naming
    [SlotIn.list [NVal.obj "T", NVal.pyNone],
     SlotIn.single (NVal.obj "T"),
     SlotIn.list [NVal.obj "A", NVal.obj "B"]] ["t", "t", "alt"] (by decide)
  refine ⟨h.2.1 0 (by decide), ?_, h.2.2.2.2 (by decide)⟩
  have h2 := h.2.2.2.1 1 (by decide)
  rw [h2]
  decide

/-- C6 counterexample: with three multi-candidate slots whose final names are
`['alt-1', 'alt-2', 'alt-2']` (third slot's class is literally named
`Alt-2`/`ALT-2`), the emitted annotation holds only TWO entries — the second
slot's entry is overwritten by the third — so "exactly one entry per
multi-candidate slot" fails. -/
theorem name_steps_annotation_entry_lost :
    (name_steps [SlotIn.list [NVal.obj "A", NVal.obj "B"],
                 SlotIn.list [NVal.obj "C", NVal.obj "D"],
                 SlotIn.list [NVal.obj "Alt-2", NVal.obj "ALT-2"]]).map (fun r => r.2) =
      some [("alt-1", [NVal.obj "A", NVal.obj "B"]),
            ("alt-2", [NVal.obj "Alt-2", NVal.obj "ALT-2"])] := by
  decide

/-- C6 (amended): whenever `_name_steps` succeeds and the base names are
hyphen-free (so the final names are distinct), each slot's representative is
the first candidate of its declared list — even when that candidate is the
`None` sentinel — and the emitted annotation is exactly one entry
`{finalName: full candidate list}` per slot with more than one candidate and
none for single-candidate slots; with colliding final names, later slots
overwrite earlier entries instead. -/
theorem name_steps_outputs (slots : List SlotIn) (bases : List String)
    (ns : List (String × NVal)) (grid : List (String × List NVal))
    (hb : computeBases slots = some bases)
    (h : name_steps slots = some (ns, grid)) :
    ns.length = slots.length
    ∧ (∀ (i : Nat) (hi : i < slots.length),
        (normSlot (slots[i])).head? = (ns[i]?).map Prod.snd)
    ∧ ns.map Prod.fst = suffixStage bases
    ∧ ((∀ b ∈ bases, hyphenFree b) →
        grid = ((suffixStage bases).zip (slots.map normSlot)).filter
          (fun kv => decide (1 < kv.2.length)))
    ∧ ((∀ b ∈ bases, hyphenFree b) →
        grid.length =
          (slots.filter (fun s => decide (1 < (normSlot s).length))).length) := by
  cases hh : headsOf (slots.map normSlot) with
  | none =>
      simp only [name_steps, hb, hh, Option.bind_eq_bind, Option.some_bind,
        Option.none_bind] at h
      exact Option.noConfusion h
  | some reps =>
      simp only [name_steps, hb, hh, Option.bind_eq_bind, Option.some_bind,
        Option.some.injEq, Prod.mk.injEq] at h
      obtain ⟨hns, hgrid⟩ := h
      have hlenb := computeBases_length slots bases hb
      obtain ⟨hlenr, hheads⟩ := headsOf_getElem? (slots.map normSlot) reps hh
      have hlens : (suffixStage bases).length = slots.length := by
        rw [suffixStage_length, hlenb]
      have hlenr' : reps.length = slots.length := by simpa using hlenr
      have hpairs : ∀ _ : ∀ b ∈ bases, hyphenFree b,
          dictOfPairs (((suffixStage bases).zip (slots.map normSlot)).filter
            (fun kv => decide (1 < kv.2.length))) =
          ((suffixStage bases).zip (slots.map normSlot)).filter
            (fun kv => decide (1 < kv.2.length)) := by
        intro hfree
        have hnodup : (suffixStage bases).Nodup := suffixStage_nodup bases hfree
        have hkeys : ((suffixStage bases).zip (slots.map normSlot)).map Prod.fst =
            suffixStage bases :=
          List.map_fst_zip _ _ (by simp [hlens])
        have hgnodup : ((((suffixStage bases).zip (slots.map normSlot)).filter
            (fun kv => decide (1 < kv.2.length))).map Prod.fst).Nodup := by
          have hsub := List.Sublist.map (f := Prod.fst)
            (List.filter_sublist (l := (suffixStage bases).zip (slots.map normSlot))
              (p := fun kv => decide (1 < kv.2.length)))
          rw [hkeys] at hsub
          exact hnodup.sublist hsub
        exact dictOfPairs_nodup _ hgnodup
      subst hns
      subst hgrid
      refine ⟨?_, ?_, ?_, ?_, ?_⟩
      · rw [List.length_zip, hlens, hlenr']
        exact Nat.min_self _
      · intro i hi
        have hz := zip_getElem? (suffixStage bases) reps i
          (by rw [hlens]; exact hi) (by rw [hlenr']; exact hi)
        rw [hz]
        have hm := hheads i (by simpa using hi)
        rw [List.getElem_map] at hm
        rw [hm, List.getElem?_eq_getElem (show i < reps.length from by rw [hlenr']; exact hi)]
        rfl
      · exact List.map_fst_zip _ _ (by rw [hlens, hlenr'])
      · intro hfree
        exact hpairs hfree
      · intro hfree
        rw [hpairs hfree]
        rw [zip_filter_snd_length (fun (l : List NVal) => decide (1 < l.length))
          (suffixStage bases) (slots.map normSlot) (by simp [hlens])]
        exact filter_map_length normSlot (fun (l : List NVal) => decide (1 < l.length)) slots

/-- C6 witness: slots `[[None, T()], U(), [A(), B()]]` — the first slot's
representative is the `None` sentinel (its position-0 candidate), and the
annotation has exactly one entry for each of the two multi-candidate slots. -/
theorem name_steps_outputs_witness :
    (normSlot ((([SlotIn.list [NVal.pyNone, NVal.obj "T"],
        SlotIn.single (NVal.obj "U"),
        SlotIn.list [NVal.obj "A", NVal.obj "B"]] : List SlotIn))[0])).head? =
      ((([("t", NVal.pyNone), ("u", NVal.obj "U"), ("alt", NVal.obj "A")] :
        List (String × NVal)))[0]?).map Prod.snd
    ∧ ([("t", [NVal.pyNone, NVal.obj "T"]), ("alt", [NVal.obj "A", NVal.obj "B"])] :
        List (String × List NVal)).length =
      (([SlotIn.list [NVal.pyNone, NVal.obj "T"],
        SlotIn.single (NVal.obj "U"),
        SlotIn.list [NVal.obj "A", NVal.obj "B"]] : List SlotIn).filter
          (fun s => decide (1 < (normSlot s).length))).length := by
  have h := name_steps_outputs
    [SlotIn.list [NVal.pyNone, NVal.obj "T"],
     SlotIn.single (NVal.obj "U"),
     SlotIn.list [NVal.obj "A", NVal.obj "B"]]
    ["t", "u", "alt"]
    [("t", NVal.pyNone), ("u", NVal.obj "U"), ("alt", NVal.obj "A")]
    [("t", [NVal.pyNone, NVal.obj "T"]), ("alt", [NVal.obj "A", NVal.obj "B"])]
    (by decide) (by decide)
  exact ⟨h.2.1 0 (by decide), h.2.2.2.2 (by decide)⟩

end Searchgrid
